import Mathlib

/-!
Shallow embedding of the arena-indexed tree container from `src/src/tree.rs`,
together with theorems settling the specification claims about it.

Modelling conventions:
* `Vec<Node<T>>` becomes `List (Node T)`; `usize` indices become `Nat`.
* Rust's panicking index operation `self.nodes[i]` is modelled totally:
  fallible operations return `Except Unit _` (`.error ()` is the
  out-of-bounds panic) or `Option` (`none` is the panic in `add`, which
  occurs before any mutation).
* The borrow `&self.nodes[...]` and `.clone()` calls are pure reads, so
  they disappear in the functional translation.
-/

namespace TreeRs

/-- The `Node<T>` record of `tree.rs` (fields `depth_level`, `parent_id`,
`children_id`, `value`). -/
structure Node (T : Type) where
  depth_level : Nat
  parent_id : Option Nat
  children_id : List Nat
  value : T
deriving DecidableEq, Repr

/-- The `Tree<T>` arena: a growable sequence of nodes addressed by index. -/
structure Tree (T : Type) where
  nodes : List (Node T)
deriving DecidableEq, Repr

/-- `Tree::new_empty`: a tree with no nodes at all. -/
def Tree.new_empty {T : Type} : Tree T :=
  { nodes := [] }

/-- `Tree::new(value)`: a tree with a single root node of depth 0,
no parent and no children. -/
def Tree.new {T : Type} (value : T) : Tree T :=
  { nodes := [{ depth_level := 0, parent_id := none, children_id := [], value := value }] }

/-- `Tree::get_current_max_depth`: fold over all nodes keeping the largest
`depth_level` seen, starting from 0. -/
def Tree.get_current_max_depth {T : Type} (t : Tree T) : Nat :=
  t.nodes.foldl (fun max_depth node =>
    if node.depth_level > max_depth then node.depth_level else max_depth) 0

/-- The child-scanning loop of `Tree::matches_children`: walk the child-id
list in order; indexing a child out of bounds is the panic (`.error ()`),
otherwise return the first child id whose node's value equals `value`. -/
def matchesChildrenLoop {T : Type} [BEq T] (nodes : List (Node T)) (value : T) :
    List Nat → Except Unit (Option Nat)
  | [] => Except.ok none
  | child_id :: rest =>
    match nodes[child_id]? with
    | none => Except.error ()
    | some child =>
      if child.value == value then Except.ok (some child_id)
      else matchesChildrenLoop nodes value rest

/-- `Tree::matches_children(parent_id, value)`: index the parent (panic when
out of bounds), then scan its children in stored order for the first whose
value equals `value`. -/
def Tree.matches_children {T : Type} [BEq T] (t : Tree T) (parent_id : Nat) (value : T) :
    Except Unit (Option Nat) :=
  match t.nodes[parent_id]? with
  | none => Except.error ()
  | some parent => matchesChildrenLoop t.nodes value parent.children_id

/-- `Tree::add(value, parent_id)`: read the parent (the panic on an invalid
index happens here, before any mutation, hence `none` with nothing changed),
append the new node `{depth = parent.depth+1, parent = some parent_id,
children = []}`, then register the new index (new length - 1) at the end of
the parent's child list. -/
def Tree.add {T : Type} (t : Tree T) (value : T) (parent_id : Nat) : Option (Tree T) :=
  match t.nodes[parent_id]? with
  | none => none
  | some parent =>
    let node : Node T :=
      { depth_level := parent.depth_level + 1
        parent_id := some parent_id
        children_id := []
        value := value }
    let nodes1 := t.nodes ++ [node]
    let length_of_nodes := nodes1.length
    some { nodes := nodes1.set parent_id
            { parent with children_id := parent.children_id ++ [length_of_nodes - 1] } }

/-- The inner frontier-scanning loop of `matches_branch_predicated`: examine
frontier members in stored order; each one is indexed first (panic = error
when out of bounds) and then tested with the predicate; return the first
member's node that satisfies the predicate, `none` when no member does. -/
def scanFrontier {T U : Type} (nodes : List (Node T)) (pred : U → T → Bool) (v : U) :
    List Nat → Except Unit (Option (Node T))
  | [] => Except.ok none
  | current_node_id :: rest =>
    match nodes[current_node_id]? with
    | none => Except.error ()
    | some node =>
      if pred v node.value then Except.ok (some node)
      else scanFrontier nodes pred v rest

/-- The outer loop of `matches_branch_predicated` over the candidate values,
carrying the current frontier (`current_nodes_id`). On a match: if the
matched node has no children it is returned at once; else if this is the
last candidate value it is returned; else its children become the frontier.
On no match the frontier is kept and the next candidate value is tried. -/
def mbLoop {T U : Type} (nodes : List (Node T)) (pred : U → T → Bool) :
    List Nat → List U → Except Unit (Option (Node T))
  | _, [] => Except.ok none
  | current_nodes_id, v :: rest =>
    if current_nodes_id.length > 0 then
      match scanFrontier nodes pred v current_nodes_id with
      | Except.error e => Except.error e
      | Except.ok none => mbLoop nodes pred current_nodes_id rest
      | Except.ok (some node) =>
        if node.children_id.isEmpty then Except.ok (some node)
        else if rest.isEmpty then Except.ok (some node)
        else mbLoop nodes pred node.children_id rest
    else
      mbLoop nodes pred current_nodes_id rest

/-- `Tree::matches_branch_predicated(branch, predicate)`: run the frontier
loop starting from the frontier `[0]` (the root index only). -/
def Tree.matches_branch_predicated {T U : Type} (t : Tree T) (branch : List U)
    (pred : U → T → Bool) : Except Unit (Option (Node T)) :=
  mbLoop t.nodes pred [0] branch

/-- `Tree::matches_branch(branch)`: predicate matching specialised to
equality of the branch value with the tree value. -/
def Tree.matches_branch {T : Type} [BEq T] (t : Tree T) (branch : List T) :
    Except Unit (Option (Node T)) :=
  t.matches_branch_predicated branch (fun branch_value tree_value => branch_value == tree_value)

/-- Run a list of `(value, parent_id)` insertions through `Tree.add`,
stopping with `none` as soon as one faults. -/
def addAll {T : Type} (t : Tree T) : List (T × Nat) → Option (Tree T)
  | [] => some t
  | op :: rest =>
    match t.add op.1 op.2 with
    | none => none
    | some t1 => addAll t1 rest

/-- A tree built by `Tree::new(root)` followed by a chain of `add` calls. -/
def buildTree {T : Type} (root : T) (ops : List (T × Nat)) : Option (Tree T) :=
  addAll (Tree.new root) ops

/-- `isBranch nodes i is = true` says that `i :: is` is a root-to-leaf chain
of indices: each index after `i` occurs in the previous node's child list,
and the final node has no children. -/
def isBranch {T : Type} (nodes : List (Node T)) : Nat → List Nat → Bool
  | i, [] =>
    match nodes[i]? with
    | some n => n.children_id.isEmpty
    | none => false
  | i, j :: rest =>
    match nodes[i]? with
    | some n => n.children_id.contains j && isBranch nodes j rest
    | none => false

/-- The values stored along a list of node indices (indices out of bounds,
which never occur on the chains we consider, are dropped). -/
def branchValues {T : Type} (nodes : List (Node T)) (is : List Nat) : List T :=
  is.filterMap (fun i => Option.map Node.value nodes[i]?)

/-- Fixture: `buildTree 0 [(1,0),(1,0),(2,1),(3,2)]` — a root valued 0 with
two children both valued 1; the first child has a leaf child valued 2, the
second a leaf child valued 3. -/
def tC4 : Tree Nat :=
  { nodes :=
    [ { depth_level := 0, parent_id := none, children_id := [1, 2], value := 0 },
      { depth_level := 1, parent_id := some 0, children_id := [3], value := 1 },
      { depth_level := 1, parent_id := some 0, children_id := [4], value := 1 },
      { depth_level := 2, parent_id := some 1, children_id := [], value := 2 },
      { depth_level := 2, parent_id := some 2, children_id := [], value := 3 } ] }

/-- Fixture: `buildTree 5 [(1,0),(2,1)]` — a single chain 5 → 1 → 2. -/
def tC6 : Tree Nat :=
  { nodes :=
    [ { depth_level := 0, parent_id := none, children_id := [1], value := 5 },
      { depth_level := 1, parent_id := some 0, children_id := [2], value := 1 },
      { depth_level := 2, parent_id := some 1, children_id := [], value := 2 } ] }

/-- Claim C1: in `matches_branch_predicated`, when no member of the current
frontier satisfies the predicate for the candidate value at some position
(the frontier scan yields no match), the loop does not abort: it advances to
the next candidate value with the frontier unchanged; and once the candidate
sequence is exhausted without an explicit success return the result is
`None`. -/
theorem claim1_mismatch_keeps_frontier {T U : Type} (nodes : List (Node T))
    (pred : U → T → Bool) (frontier : List Nat) (v : U) (rest : List U) :
    (scanFrontier nodes pred v frontier = Except.ok none →
      mbLoop nodes pred frontier (v :: rest) = mbLoop nodes pred frontier rest) ∧
    mbLoop nodes pred frontier ([] : List U) = Except.ok none := by
  constructor
  · intro h
    simp only [mbLoop]
    split
    · rw [h]
    · rfl
  · rfl

/-- Witness for C1 on a concrete tree: at frontier `[3]` (node valued 2) the
candidate value 99 matches nothing, and the loop continues on the same
frontier with the remaining candidates. -/
theorem claim1_witness :
    mbLoop tC4.nodes (fun a b => a == b) [3] [99, 2] =
      mbLoop tC4.nodes (fun a b => a == b) [3] [2] :=
  (claim1_mismatch_keeps_frontier tC4.nodes (fun a b => a == b) [3] 99 [2]).1 rfl

/-- Claim C2 counterexample: on the single-node tree with root value 10, the
candidate sequence `[99, 10]` — whose FIRST element does not match the root —
still returns the root node, because the mismatch at position 0 is skipped
and position 1 then matches the root. -/
theorem claim2_counterexample :
    (Tree.new 10).matches_branch [99, 10] = Except.ok (some
      { depth_level := 0, parent_id := none, children_id := [], value := 10 }) ∧
    ((99 : Nat) == 10) = false :=
  ⟨rfl, rfl⟩

/-- Claim C3 counterexample: the single-node tree with root value 10 has
exactly one root-to-leaf branch, consisting of the root alone (one value);
the candidate sequence `[10, 10]` is strictly longer than it, yet
`matches_branch` returns the root node (leaf early-return), not `None`. -/
theorem claim3_counterexample :
    (Tree.new 10).nodes =
      [{ depth_level := 0, parent_id := none, children_id := [], value := 10 }] ∧
    isBranch (Tree.new 10).nodes 0 [] = true ∧
    [10, 10].length = 2 ∧
    (Tree.new 10).matches_branch [10, 10] = Except.ok (some
      { depth_level := 0, parent_id := none, children_id := [], value := 10 }) :=
  ⟨rfl, rfl, rfl, rfl⟩

/-- Claim C4 counterexample: in `tC4`, `[0, 2, 4]` is a root-to-leaf branch
with value sequence `[0, 1, 3]`, but `matches_branch [0, 1, 3]` returns
`None`: the scan picks the leftmost child valued 1 (node 1), whose subtree
does not contain a 3. -/
theorem claim4_counterexample :
    buildTree 0 [(1, 0), (1, 0), (2, 1), (3, 2)] = some tC4 ∧
    isBranch tC4.nodes 0 [2, 4] = true ∧
    branchValues tC4.nodes [0, 2, 4] = [0, 1, 3] ∧
    tC4.matches_branch [0, 1, 3] = Except.ok none :=
  ⟨rfl, rfl, rfl, rfl⟩

/-- The frontier scan returns the first matching member: members before it
fail the predicate, members after it are never examined. -/
theorem scanFrontier_append {T U : Type} (nodes : List (Node T)) (pred : U → T → Bool)
    (v : U) (i : Nat) (n : Node T) (post : List Nat) :
    ∀ pre : List Nat, (∀ c ∈ pre, ∃ m, nodes[c]? = some m ∧ pred v m.value = false) →
    nodes[i]? = some n → pred v n.value = true →
    scanFrontier nodes pred v (pre ++ i :: post) = Except.ok (some n)
  | [], _, hn, hv => by simp [scanFrontier, hn, hv]
  | c :: cs, hpre, hn, hv => by
    obtain ⟨m, hm, hf⟩ := hpre c (List.mem_cons_self c cs)
    have ih := scanFrontier_append nodes pred v i n post cs
      (fun x hx => hpre x (List.mem_cons_of_mem c hx)) hn hv
    simp [scanFrontier, hm, hf, ih]

/-- Claim C5: first-match-wins sibling selection. If the frontier is
`pre ++ i :: post` where everything in `pre` fails the predicate and node `i`
satisfies it, then (provided node `i` has children and candidates remain)
the loop continues with exactly node `i`'s children as the next frontier:
the members in `post` are never examined, and only the leftmost matching
sibling's subtree is explored. -/
theorem claim5_first_match_wins {T U : Type} (nodes : List (Node T))
    (pred : U → T → Bool) (pre post : List Nat) (i : Nat) (n : Node T)
    (v : U) (rest : List U)
    (hpre : ∀ c ∈ pre, ∃ m, nodes[c]? = some m ∧ pred v m.value = false)
    (hn : nodes[i]? = some n) (hv : pred v n.value = true)
    (hchild : n.children_id ≠ []) (hrest : rest ≠ []) :
    mbLoop nodes pred (pre ++ i :: post) (v :: rest) =
      mbLoop nodes pred n.children_id rest := by
  have hscan := scanFrontier_append nodes pred v i n post pre hpre hn hv
  simp only [mbLoop]
  rw [hscan]
  simp [List.length_append, List.isEmpty_iff, hchild, hrest]

/-- Witness for C5 on `tC4`: at frontier `[1, 2]` with candidate value 1,
node 1 is the leftmost match and the loop continues with its children `[3]`;
the equally matching sibling 2 is not explored. -/
theorem claim5_witness :
    mbLoop tC4.nodes (fun a b => a == b) [1, 2] [1, 5] =
      mbLoop tC4.nodes (fun a b => a == b) [3] [5] :=
  claim5_first_match_wins tC4.nodes (fun a b => a == b) [] [2] 1
    { depth_level := 1, parent_id := some 0, children_id := [3], value := 1 } 1 [5]
    (by intro c hc; cases hc) rfl rfl (by decide) (by decide)

/-- Claim C7: `add` with an out-of-range parent index faults (no tree is
produced); the fault happens at the very first arena access, before the new
node is appended and before any child list changes, so no partial mutation
is observable. -/
theorem claim7_add_invalid_index {T : Type} (t : Tree T) (value : T) (parent_id : Nat)
    (h : t.nodes.length ≤ parent_id) : t.add value parent_id = none := by
  unfold Tree.add
  rw [List.getElem?_eq_none h]

/-- Witness for C7: adding to parent index 5 of a one-node tree faults. -/
theorem claim7_witness : (Tree.new 0).add 7 5 = none :=
  claim7_add_invalid_index (Tree.new 0) 7 5 (by decide)

/-- Claim C10: on the tree produced by `new_empty`, any non-empty candidate
sequence makes `matches_branch_predicated` index arena position 0 of the
empty node list, so the out-of-bounds error branch is taken rather than a
`None` result. -/
theorem claim10_empty_tree_error {T U : Type} (v : U) (rest : List U)
    (pred : U → T → Bool) :
    (Tree.new_empty : Tree T).matches_branch_predicated (v :: rest) pred =
      Except.error () :=
  rfl

/-- The structural invariant of claim C6: the root (index 0) has no parent
and depth 0, and every node at a positive index has a parent at a strictly
smaller index whose depth is one less. -/
def StructInv {T : Type} (t : Tree T) : Prop :=
  ∀ (i : Nat) (n : Node T), t.nodes[i]? = some n →
    (i = 0 → n.parent_id = none ∧ n.depth_level = 0) ∧
    (0 < i → ∃ p np, n.parent_id = some p ∧ p < i ∧ t.nodes[p]? = some np ∧
      n.depth_level = np.depth_level + 1)

/-- Every child index stored in any node is a valid arena index. -/
def ChildrenInBounds {T : Type} (t : Tree T) : Prop :=
  ∀ (i : Nat) (n : Node T), t.nodes[i]? = some n →
    ∀ c ∈ n.children_id, c < t.nodes.length

/-- The node freshly created by `Tree::add(v, p)` under parent `parent`. -/
def freshNode {T : Type} (v : T) (p : Nat) (parent : Node T) : Node T :=
  { depth_level := parent.depth_level + 1, parent_id := some p,
    children_id := [], value := v }

/-- The parent node after `Tree::add` registered the new index `len`. -/
def updatedParent {T : Type} (parent : Node T) (len : Nat) : Node T :=
  { parent with children_id := parent.children_id ++ [len] }

/-- Unfolding of a successful `add`: the parent existed, and the new arena is
the old one with the new node appended and the parent's child list extended
by the new index. -/
theorem add_eq_some {T : Type} {t t' : Tree T} {v : T} {p : Nat}
    (h : t.add v p = some t') :
    ∃ parent, t.nodes[p]? = some parent ∧
      t'.nodes = (t.nodes ++ [freshNode v p parent]).set p
        (updatedParent parent t.nodes.length) := by
  unfold Tree.add at h
  cases hp : t.nodes[p]? with
  | none => rw [hp] at h; cases h
  | some parent =>
    rw [hp] at h
    refine ⟨parent, rfl, ?_⟩
    simp only [Option.some.injEq] at h
    rw [← h]
    simp [freshNode, updatedParent]

/-- Index lookup in the arena after a successful `add`, split by position:
the parent's slot holds the updated parent, the fresh slot holds the new
node, and every other slot is unchanged. -/
theorem add_getElem? {T : Type} {t t' : Tree T} (v : T) {p : Nat}
    (parent : Node T) (hp : t.nodes[p]? = some parent)
    (ht' : t'.nodes = (t.nodes ++ [freshNode v p parent]).set p
      (updatedParent parent t.nodes.length)) :
    ∀ i, t'.nodes[i]? =
      if i = p then some (updatedParent parent t.nodes.length)
      else if i = t.nodes.length then some (freshNode v p parent)
      else t.nodes[i]? := by
  have hplen : p < t.nodes.length := by
    rcases List.getElem?_eq_some_iff.1 hp with ⟨hlt, _⟩
    exact hlt
  intro i
  by_cases hip : i = p
  · subst hip
    rw [ht', List.getElem?_set_self (by simp; omega)]
    simp [Nat.ne_of_lt hplen]
  · rw [ht', List.getElem?_set_ne (fun hpe => hip hpe.symm)]
    by_cases hil : i = t.nodes.length
    · subst hil
      rw [List.getElem?_concat_length]
      simp [hip]
    · by_cases hlt : i < t.nodes.length
      · rw [List.getElem?_append_left hlt]
        simp [hip, hil]
      · rw [List.getElem?_eq_none (by simp; omega), List.getElem?_eq_none (by omega)]
        simp [hip, hil]

/-- A successful `add` preserves the structural invariant. -/
theorem structInv_add {T : Type} {t t' : Tree T} {v : T} {p : Nat}
    (ht : StructInv t) (h : t.add v p = some t') : StructInv t' := by
  obtain ⟨parent, hp, hnodes⟩ := add_eq_some h
  have hplen : p < t.nodes.length := by
    rcases List.getElem?_eq_some_iff.1 hp with ⟨hlt, _⟩
    exact hlt
  have hget := add_getElem? v parent hp hnodes
  intro i n hin
  rw [hget i] at hin
  by_cases hip : i = p
  · subst hip
    rw [if_pos rfl] at hin
    injection hin with hin
    subst hin
    constructor
    · intro h0
      subst h0
      have := (ht 0 parent hp).1 rfl
      simpa [updatedParent] using this
    · intro hpos
      obtain ⟨q, nq, hq, hqlt, hnq, hd⟩ := (ht _ parent hp).2 hpos
      refine ⟨q, nq, ?_, hqlt, ?_, ?_⟩
      · simpa [updatedParent] using hq
      · rw [hget q, if_neg (by omega), if_neg (by omega)]
        exact hnq
      · simpa [updatedParent] using hd
  · rw [if_neg hip] at hin
    by_cases hil : i = t.nodes.length
    · subst hil
      rw [if_pos rfl] at hin
      injection hin with hin
      subst hin
      constructor
      · intro h0
        omega
      · intro _
        refine ⟨p, updatedParent parent t.nodes.length, rfl, hplen, ?_, ?_⟩
        · rw [hget p, if_pos rfl]
        · simp [freshNode, updatedParent]
    · rw [if_neg hil] at hin
      have hilen : i < t.nodes.length := by
        rcases List.getElem?_eq_some_iff.1 hin with ⟨hlt, _⟩
        exact hlt
      constructor
      · intro h0
        exact (ht i n hin).1 h0
      · intro hpos
        obtain ⟨q, nq, hq, hqlt, hnq, hd⟩ := (ht i n hin).2 hpos
        by_cases hqp : q = p
        · subst hqp
          have hnqp : nq = parent := by
            rw [hp] at hnq
            exact (Option.some.inj hnq).symm
          subst hnqp
          refine ⟨q, updatedParent nq t.nodes.length, hq, hqlt, ?_, ?_⟩
          · rw [hget q, if_pos rfl]
          · simpa [updatedParent] using hd
        · refine ⟨q, nq, hq, hqlt, ?_, hd⟩
          rw [hget q, if_neg hqp, if_neg (by omega)]
          exact hnq

/-- A successful `add` keeps every stored child index in bounds. -/
theorem childrenInBounds_add {T : Type} {t t' : Tree T} {v : T} {p : Nat}
    (ht : ChildrenInBounds t) (h : t.add v p = some t') : ChildrenInBounds t' := by
  obtain ⟨parent, hp, hnodes⟩ := add_eq_some h
  have hget := add_getElem? v parent hp hnodes
  have hlen : t'.nodes.length = t.nodes.length + 1 := by
    rw [hnodes]
    simp
  intro i n hin c hc
  rw [hget i] at hin
  rw [hlen]
  by_cases hip : i = p
  · rw [if_pos hip] at hin
    injection hin with hin
    subst hin
    simp only [updatedParent, List.mem_append, List.mem_singleton] at hc
    rcases hc with hc | hc
    · exact Nat.lt_succ_of_lt (ht p parent hp c hc)
    · omega
  · rw [if_neg hip] at hin
    by_cases hil : i = t.nodes.length
    · rw [if_pos hil] at hin
      injection hin with hin
      subst hin
      simp [freshNode] at hc
    · rw [if_neg hil] at hin
      exact Nat.lt_succ_of_lt (ht i n hin c hc)

/-- The single-root tree satisfies the structural invariant. -/
theorem structInv_new {T : Type} (root : T) : StructInv (Tree.new root) := by
  intro i n hin
  cases i with
  | zero =>
    simp only [Tree.new, List.getElem?_cons_zero, Option.some.injEq] at hin
    subst hin
    exact ⟨fun _ => ⟨rfl, rfl⟩, fun h0 => absurd h0 (lt_irrefl 0)⟩
  | succ j =>
    simp [Tree.new] at hin

/-- The single-root tree stores no child indices at all. -/
theorem childrenInBounds_new {T : Type} (root : T) : ChildrenInBounds (Tree.new root) := by
  intro i n hin c hc
  cases i with
  | zero =>
    simp only [Tree.new, List.getElem?_cons_zero, Option.some.injEq] at hin
    subst hin
    cases hc
  | succ j =>
    simp [Tree.new] at hin

/-- `addAll` preserves the structural invariant. -/
theorem structInv_addAll {T : Type} :
    ∀ (ops : List (T × Nat)) (t t' : Tree T),
      StructInv t → addAll t ops = some t' → StructInv t'
  | [], t, t', ht, h => by
    simp only [addAll, Option.some.injEq] at h
    rw [← h]
    exact ht
  | op :: rest, t, t', ht, h => by
    simp only [addAll] at h
    cases hadd : t.add op.1 op.2 with
    | none => rw [hadd] at h; cases h
    | some t1 =>
      rw [hadd] at h
      exact structInv_addAll rest t1 t' (structInv_add ht hadd) h

/-- `addAll` preserves boundedness of the stored child indices. -/
theorem childrenInBounds_addAll {T : Type} :
    ∀ (ops : List (T × Nat)) (t t' : Tree T),
      ChildrenInBounds t → addAll t ops = some t' → ChildrenInBounds t'
  | [], t, t', ht, h => by
    simp only [addAll, Option.some.injEq] at h
    rw [← h]
    exact ht
  | op :: rest, t, t', ht, h => by
    simp only [addAll] at h
    cases hadd : t.add op.1 op.2 with
    | none => rw [hadd] at h; cases h
    | some t1 =>
      rw [hadd] at h
      exact childrenInBounds_addAll rest t1 t' (childrenInBounds_add ht hadd) h

/-- Every tree built by `new` plus `add` calls has all child indices in
bounds. -/
theorem buildTree_childrenInBounds {T : Type} {root : T} {ops : List (T × Nat)}
    {t : Tree T} (h : buildTree root ops = some t) : ChildrenInBounds t :=
  childrenInBounds_addAll ops (Tree.new root) t (childrenInBounds_new root) h

/-- Claim C6: after any sequence of `new` / `add` calls with valid parent
indices, every node at index `i > 0` has `parent = some p` with `p < i` and
depth equal to its parent's depth plus one, and the root (index 0) has
depth 0 and no parent. -/
theorem claim6_structural_invariant {T : Type} (root : T) (ops : List (T × Nat))
    (t : Tree T) (h : buildTree root ops = some t) : StructInv t :=
  structInv_addAll ops (Tree.new root) t (structInv_new root) h

/-- Witness for C6: the concrete 3-node chain built by two `add` calls
satisfies the structural invariant. -/
theorem claim6_witness : StructInv tC6 :=
  claim6_structural_invariant 5 [(1, 0), (2, 1)] tC6 rfl

/-- The length of the parent chain from node `i` back to the root, following
`parent_id` links; a missing node, a rootless node or a malformed parent link
(one that does not decrease the index) contributes 0. -/
def chainLen {T : Type} (nodes : List (Node T)) (i : Nat) : Nat :=
  match nodes[i]? with
  | none => 0
  | some n =>
    match n.parent_id with
    | none => 0
    | some p =>
      if h : p < i then chainLen nodes p + 1 else 0
termination_by i

/-- The length of the longest parent chain from the root, over all nodes. -/
def maxChainLen {T : Type} (t : Tree T) : Nat :=
  (List.range t.nodes.length).foldl (fun acc i => max acc (chainLen t.nodes i)) 0

/-- Under the structural invariant, the parent-chain length of a node is
exactly its stored depth. -/
theorem chainLen_eq_depth {T : Type} {t : Tree T} (ht : StructInv t) :
    ∀ (i : Nat) (n : Node T), t.nodes[i]? = some n → chainLen t.nodes i = n.depth_level := by
  intro i
  induction i using Nat.strong_induction_on with
  | _ i ih =>
    intro n hn
    rcases Nat.eq_zero_or_pos i with h0 | hpos
    · subst h0
      obtain ⟨hpar, hdep⟩ := (ht 0 n hn).1 rfl
      rw [chainLen.eq_def, hn]
      simp only [hpar, hdep]
    · obtain ⟨p, np, hpar, hplt, hnp, hdep⟩ := (ht i n hn).2 hpos
      rw [chainLen.eq_def, hn]
      simp only [hpar]
      rw [dif_pos hplt, ih p hplt np hnp, hdep]

/-- `get_current_max_depth` is the fold of `max` over the stored depths. -/
theorem gcmd_eq_foldl_max {T : Type} (t : Tree T) :
    t.get_current_max_depth =
      (t.nodes.map Node.depth_level).foldl (fun a b => max a b) 0 := by
  unfold Tree.get_current_max_depth
  rw [List.foldl_map]
  refine List.foldl_ext _ _ 0 ?_
  intro a n _
  rw [Nat.max_def]
  split
  · split
    · rfl
    · omega
  · split
    · omega
    · rfl

/-- Claim C8: `get_current_max_depth` returns 0 on the empty tree, and on
any tree built by `new` plus `add` calls with valid parents it equals the
length of the longest parent chain from the root over all nodes. -/
theorem claim8_max_depth :
    (∀ (α : Type), (Tree.new_empty : Tree α).get_current_max_depth = 0) ∧
    (∀ (α : Type) (root : α) (ops : List (α × Nat)) (t : Tree α),
      buildTree root ops = some t → t.get_current_max_depth = maxChainLen t) := by
  constructor
  · intro α
    rfl
  · intro α root ops t h
    have hinv : StructInv t := structInv_addAll ops (Tree.new root) t (structInv_new root) h
    have hlist : t.nodes.map Node.depth_level =
        (List.range t.nodes.length).map (chainLen t.nodes) := by
      refine List.ext_getElem (by simp) ?_
      intro i h1 h2
      have hi : i < t.nodes.length := by simpa using h1
      rw [List.getElem_map, List.getElem_map, List.getElem_range]
      exact (chainLen_eq_depth hinv i t.nodes[i] (List.getElem?_eq_getElem hi)).symm
    rw [gcmd_eq_foldl_max, hlist, List.foldl_map]
    rfl

/-- Witness for C8 on the concrete 3-node chain `tC6`. -/
theorem claim8_witness : tC6.get_current_max_depth = maxChainLen tC6 :=
  claim8_max_depth.2 Nat 5 [(1, 0), (2, 1)] tC6 rfl

/-- The child-scanning loop of `matches_children` computes the first child
index whose node's value equals the requested value, provided every scanned
child index is in bounds. -/
theorem matchesChildrenLoop_eq_find? {T : Type} [BEq T] (nodes : List (Node T)) (value : T) :
    ∀ cs : List Nat, (∀ c ∈ cs, c < nodes.length) →
      matchesChildrenLoop nodes value cs = Except.ok (cs.find? (fun c =>
        match nodes[c]? with
        | some m => m.value == value
        | none => false))
  | [], _ => rfl
  | c :: rest, hb => by
    have hc : c < nodes.length := hb c (List.mem_cons_self c rest)
    have hm : nodes[c]? = some nodes[c] := List.getElem?_eq_getElem hc
    have ih := matchesChildrenLoop_eq_find? nodes value rest
      (fun x hx => hb x (List.mem_cons_of_mem c hx))
    simp only [matchesChildrenLoop, hm, List.find?_cons]
    cases hvm : (nodes[c].value == value) with
    | true => simp [hvm]
    | false => simp [hvm, ih]

/-- Claim C9: on any tree built by `new` plus `add` calls, for a valid
parent index `p`, `matches_children p v` returns the first child of `p` in
stored (insertion) order whose value equals `v`, and `none` when no child
matches. -/
theorem claim9_matches_children {T : Type} [BEq T] (root : T) (ops : List (T × Nat))
    (t : Tree T) (p : Nat) (v : T) (n : Node T)
    (hb : buildTree root ops = some t) (hp : t.nodes[p]? = some n) :
    t.matches_children p v = Except.ok (n.children_id.find? (fun c =>
      match t.nodes[c]? with
      | some m => m.value == v
      | none => false)) := by
  have hcb : ChildrenInBounds t := buildTree_childrenInBounds hb
  unfold Tree.matches_children
  rw [hp]
  exact matchesChildrenLoop_eq_find? t.nodes v n.children_id (hcb p n hp)

/-- Witness for C9 on `tC4`: scanning the root's children for value 1 finds
child index 1, the first of the two children valued 1. -/
theorem claim9_witness : tC4.matches_children 0 1 = Except.ok (some 1) :=
  Eq.trans
    (claim9_matches_children 0 [(1, 0), (1, 0), (2, 1), (3, 2)] tC4 0 1
      { depth_level := 0, parent_id := none, children_id := [1, 2], value := 0 } rfl rfl)
    rfl

/-- Unfolding of one step of the matching loop when the frontier is
non-empty. -/
theorem mbLoop_cons_unfold {T U : Type} (nodes : List (Node T)) (pred : U → T → Bool)
    (f : Nat) (fs : List Nat) (v : U) (rest : List U) :
    mbLoop nodes pred (f :: fs) (v :: rest) =
      match scanFrontier nodes pred v (f :: fs) with
      | Except.error e => Except.error e
      | Except.ok none => mbLoop nodes pred (f :: fs) rest
      | Except.ok (some node) =>
        if node.children_id.isEmpty then Except.ok (some node)
        else if rest.isEmpty then Except.ok (some node)
        else mbLoop nodes pred node.children_id rest := by
  simp only [mbLoop, List.length_cons]
  rw [if_pos (Nat.succ_pos fs.length)]

/-- Whenever the branch-matching loop started at the root returns a node,
some candidate value in the branch satisfies the predicate against the
root's value (but not necessarily the first candidate: mismatches are
skipped with the frontier unchanged). -/
theorem mbLoop_some_root_match {T U : Type} (nodes : List (Node T)) (pred : U → T → Bool) :
    ∀ (branch : List U) (n : Node T),
      mbLoop nodes pred [0] branch = Except.ok (some n) →
      ∃ v root, v ∈ branch ∧ nodes[0]? = some root ∧ pred v root.value = true
  | [], n, h => by simp [mbLoop] at h
  | v :: rest, n, h => by
    rw [mbLoop_cons_unfold] at h
    cases h0 : nodes[0]? with
    | none =>
      simp only [scanFrontier, h0] at h
      exact Except.noConfusion h
    | some root =>
      cases hpv : pred v root.value with
      | true =>
        exact ⟨v, root, List.mem_cons_self v rest, rfl, hpv⟩
      | false =>
        have hscan : scanFrontier nodes pred v [0] = Except.ok none := by
          simp [scanFrontier, h0, hpv]
        rw [hscan] at h
        obtain ⟨w, root', hw, hr', hp'⟩ := mbLoop_some_root_match nodes pred rest n h
        rw [h0] at hr'
        exact ⟨w, root', List.mem_cons_of_mem v hw, hr', hp'⟩

/-- Claim C2 (amended): if `matches_branch_predicated` returns a node, then
SOME element of the candidate sequence matches the root's value under the
predicate — not necessarily the first element, since the skip-on-mismatch
behaviour keeps scanning the root frontier on later candidate values. -/
theorem claim2_amended_root_match {T U : Type} (t : Tree T) (branch : List U)
    (pred : U → T → Bool) (n : Node T)
    (h : t.matches_branch_predicated branch pred = Except.ok (some n)) :
    ∃ v root, v ∈ branch ∧ t.nodes[0]? = some root ∧ pred v root.value = true :=
  mbLoop_some_root_match t.nodes pred branch n h

/-- Witness for amended C2: the match of `[99, 10]` on the root-only tree
valued 10 is produced by the candidate value 10, which matches the root. -/
theorem claim2_witness :
    ∃ v root, v ∈ ([99, 10] : List Nat) ∧ (Tree.new 10).nodes[0]? = some root ∧
      (v == root.value) = true :=
  claim2_amended_root_match (Tree.new 10) [99, 10] (fun a b => a == b)
    { depth_level := 0, parent_id := none, children_id := [], value := 10 } rfl

/-- When the predicate rejects every candidate-value / node pair, the loop
started from the root frontier scans the whole branch (the frontier stays
`[0]` throughout) and ends in `Except.ok none`. -/
theorem mbLoop_never_matches {T U : Type} (nodes : List (Node T)) (pred : U → T → Bool)
    (hne : nodes ≠ []) :
    ∀ branch : List U, (∀ v ∈ branch, ∀ nd ∈ nodes, pred v nd.value = false) →
      mbLoop nodes pred [0] branch = Except.ok none
  | [], _ => rfl
  | v :: rest, hmiss => by
    have hlen : 0 < nodes.length := List.length_pos.2 hne
    have h0 : nodes[0]? = some nodes[0] := List.getElem?_eq_getElem hlen
    have hpv : pred v (nodes[0]).value = false :=
      hmiss v (List.mem_cons_self v rest) nodes[0] (List.getElem_mem hlen)
    have hscan : scanFrontier nodes pred v [0] = Except.ok none := by
      simp [scanFrontier, h0, hpv]
    rw [mbLoop_cons_unfold, hscan]
    exact mbLoop_never_matches nodes pred hne rest
      (fun w hw => hmiss w (List.mem_cons_of_mem v hw))

/-- Claim C3 (amended): a candidate sequence strictly longer than every
root-to-leaf path need NOT return `None` (the leaf early-return can fire,
see the counterexample); what does hold is that on any non-empty tree, when
the predicate rejects every candidate value against every node value, the
whole candidate sequence — of any length, in particular longer than every
root-to-leaf path — is exhausted without aborting and the result is `None`.
The frontier never becomes empty: it stays at the root frontier `[0]`. -/
theorem claim3_amended_exhaustion {T U : Type} (t : Tree T) (branch : List U)
    (pred : U → T → Bool) (hne : t.nodes ≠ [])
    (hmiss : ∀ v ∈ branch, ∀ nd ∈ t.nodes, pred v nd.value = false) :
    t.matches_branch_predicated branch pred = Except.ok none :=
  mbLoop_never_matches t.nodes pred hne branch hmiss

/-- Witness for amended C3: on the root-only tree valued 10, the sequence
`[1, 2, 3]` (longer than the single root-to-leaf path) matches nothing and
yields `None` only after being exhausted. -/
theorem claim3_witness :
    (Tree.new 10).matches_branch_predicated [1, 2, 3] (fun a b => a == b) =
      Except.ok none :=
  claim3_amended_exhaustion (Tree.new 10) [1, 2, 3] (fun a b => a == b)
    (by decide) (by decide)

/-- A root-to-leaf chain of indices that the matching loop actually follows:
each step requires that scanning the current node's child list for the next
node's value returns exactly that next node (so each chain node is the
leftmost among its siblings with its value), and the final node is a leaf. -/
def LeftmostBranch {T : Type} [BEq T] (nodes : List (Node T)) : Nat → List Nat → Prop
  | i, [] =>
    match nodes[i]? with
    | some n => n.children_id = []
    | none => False
  | i, j :: rest =>
    match nodes[i]?, nodes[j]? with
    | some n, some nj =>
      scanFrontier nodes (fun a b => a == b) nj.value n.children_id =
        Except.ok (some nj) ∧
      LeftmostBranch nodes j rest
    | _, _ => False

/-- A frontier whose scan succeeds is non-empty. -/
theorem scanFrontier_ok_some_ne_nil {T U : Type} {nodes : List (Node T)}
    {pred : U → T → Bool} {v : U} {frontier : List Nat} {n : Node T}
    (h : scanFrontier nodes pred v frontier = Except.ok (some n)) : frontier ≠ [] := by
  intro he
  subst he
  simp [scanFrontier] at h

/-- Following a leftmost root-to-leaf chain, the matching loop returns the
chain's final (leaf) node. -/
theorem leftmost_mbLoop {T : Type} [BEq T] (nodes : List (Node T)) :
    ∀ (is : List Nat) (i : Nat) (n : Node T) (frontier : List Nat),
      nodes[i]? = some n →
      scanFrontier nodes (fun a b => a == b) n.value frontier = Except.ok (some n) →
      LeftmostBranch nodes i is →
      ∃ (j : Nat) (m : Node T), (i :: is).getLast? = some j ∧ nodes[j]? = some m ∧
        mbLoop nodes (fun a b => a == b) frontier (n.value :: branchValues nodes is) =
          Except.ok (some m)
  | [], i, n, frontier, hn, hscan, hlb => by
    simp only [LeftmostBranch, hn] at hlb
    cases frontier with
    | nil => simp [scanFrontier] at hscan
    | cons f fs =>
      refine ⟨i, n, rfl, hn, ?_⟩
      rw [mbLoop_cons_unfold, hscan]
      simp [branchValues, hlb]
  | j :: rest, i, n, frontier, hn, hscan, hlb => by
    simp only [LeftmostBranch, hn] at hlb
    cases hj : nodes[j]? with
    | none =>
      rw [hj] at hlb
      exact hlb.elim
    | some nj =>
      rw [hj] at hlb
      obtain ⟨hscanj, hlbrest⟩ := hlb
      have hch : n.children_id ≠ [] := scanFrontier_ok_some_ne_nil hscanj
      have hchb : n.children_id.isEmpty = false := by
        cases hcc : n.children_id with
        | nil => exact absurd hcc hch
        | cons a as => rfl
      have hbv : branchValues nodes (j :: rest) = nj.value :: branchValues nodes rest := by
        simp [branchValues, hj]
      cases frontier with
      | nil => simp [scanFrontier] at hscan
      | cons f fs =>
        obtain ⟨j', m, hlast, hm, heq⟩ :=
          leftmost_mbLoop nodes rest j nj n.children_id hj hscanj hlbrest
        refine ⟨j', m, ?_, hm, ?_⟩
        · rw [List.getLast?_cons_cons]
          exact hlast
        · rw [hbv, mbLoop_cons_unfold, hscan]
          simp only [hchb, List.isEmpty_cons, Bool.false_eq_true, if_false]
          exact heq

/-- Claim C4 (amended): on a tree built by `new` plus `add` calls, for every
root-to-leaf branch each of whose nodes is the one found by the leftmost
scan of its parent's child list (in particular whenever no earlier sibling
shares its value), `matches_branch` on the branch's exact value sequence
returns the leaf node of that branch. Without the leftmost condition the
round trip can fail — see the counterexample. -/
theorem claim4_amended_roundtrip {T : Type} [BEq T] [LawfulBEq T] (root : T)
    (ops : List (T × Nat)) (t : Tree T) (is : List Nat)
    (_hb : buildTree root ops = some t) (hlb : LeftmostBranch t.nodes 0 is) :
    ∃ (j : Nat) (m : Node T), (0 :: is).getLast? = some j ∧ t.nodes[j]? = some m ∧
      t.matches_branch (branchValues t.nodes (0 :: is)) = Except.ok (some m) := by
  have hn0 : ∃ n0, t.nodes[0]? = some n0 := by
    cases is with
    | nil =>
      simp only [LeftmostBranch] at hlb
      cases h0 : t.nodes[0]? with
      | none => rw [h0] at hlb; exact hlb.elim
      | some n0 => exact ⟨n0, rfl⟩
    | cons j rest =>
      simp only [LeftmostBranch] at hlb
      cases h0 : t.nodes[0]? with
      | none => rw [h0] at hlb; exact hlb.elim
      | some n0 => exact ⟨n0, rfl⟩
  obtain ⟨n0, hn0⟩ := hn0
  have hbv : branchValues t.nodes (0 :: is) = n0.value :: branchValues t.nodes is := by
    simp [branchValues, hn0]
  have hscan0 : scanFrontier t.nodes (fun a b => a == b) n0.value [0] =
      Except.ok (some n0) := by
    simp [scanFrontier, hn0]
  obtain ⟨j, m, hlast, hm, heq⟩ := leftmost_mbLoop t.nodes is 0 n0 [0] hn0 hscan0 hlb
  refine ⟨j, m, hlast, hm, ?_⟩
  unfold Tree.matches_branch Tree.matches_branch_predicated
  rw [hbv]
  exact heq

/-- Witness for amended C4: the chain tree `tC6` with branch `0 → 1 → 2`
(values `[5, 1, 2]`) round-trips to its leaf. -/
theorem claim4_witness :
    ∃ (j : Nat) (m : Node Nat), ([0, 1, 2] : List Nat).getLast? = some j ∧
      tC6.nodes[j]? = some m ∧
      tC6.matches_branch (branchValues tC6.nodes [0, 1, 2]) = Except.ok (some m) :=
  claim4_amended_roundtrip 5 [(1, 0), (2, 1)] tC6 [1, 2] rfl ⟨rfl, rfl, rfl⟩

end TreeRs
